import Mathlib

/-!
# Key-array loading and segment persistence of `examples/simple.cpp`

A shallow embedding of the three file routines of `src/examples/simple.cpp`
(`readKeysFromFile`, `saveSegmentsToFile`, `loadSegmentsFromFile`) together with
the small part of the C++ stream library they rely on.

Modelling conventions.

* `W` is `sizeof(K)`, the width in bytes of the key type `K` (an unsigned integer type).
* Bytes are `Fin 256`; objects are laid out in little-endian order (the byte order of the
  x86-64 machine the example is written for), `size_t` and `uint64_t` are 64 bits wide.
* A file system gives, for every path, the bytes an input stream sees (or nothing when
  the path cannot be opened for reading) and whether an output stream can be opened on it.
* Every routine returns an `Outcome`: either it returns, with its value and the trace of
  the stream calls and diagnostics it made, or the C++ program has undefined behaviour.
* A local variable declared without initialiser (`K size;`, `K key;`) holds an
  indeterminate value; the embedding takes these values from a parameter `junk`.
-/

namespace PGM

/-! ## Bytes and fixed-width integers -/

/-- One byte of a file or of an object representation. -/
abbrev Byte := Fin 256

/-- A file name (`std::string`). -/
abbrev Path := String

/-- The object representation of the unsigned integer `v` in `w` bytes, little-endian:
the value is reduced modulo `2 ^ (8 * w)`. -/
def encodeLE : Nat → Nat → List Byte
  | 0, _ => []
  | w + 1, v => ⟨v % 256, Nat.mod_lt v (by decide)⟩ :: encodeLE w (v / 256)

/-- The unsigned integer whose little-endian object representation is the given bytes. -/
def decodeLE : List Byte → Nat
  | [] => 0
  | b :: bs => b.val + 256 * decodeLE bs

/-- The `i`-th record of width `W` of a byte buffer, read as an unsigned integer
(`reinterpret_cast<K*>(buf)[i]`). -/
def record (W : Nat) (buf : List Byte) (i : Nat) : Nat :=
  decodeLE ((buf.drop (i * W)).take W)

/-- The bytes behind `keys.data()` for a `std::vector<K>`. -/
def vectorBytes (W : Nat) (keys : List Nat) : List Byte :=
  (keys.map (encodeLE W)).flatten

/-- The `n` elements of a `std::vector<K>` whose storage holds the given bytes. -/
def bytesVector (W : Nat) (n : Nat) (buf : List Byte) : List Nat :=
  (List.range n).map (record W buf)

/-! ## Streams, traces and outcomes -/

/-- The observable actions of the routines. -/
inductive Event where
  /-- A diagnostic line on `std::cerr`. -/
  | cerr : Event
  /-- A progress line on `std::cout`. -/
  | cout : Event
  /-- A call of `istream::read` asking for `requested` bytes, of which `extracted` arrived. -/
  | read (requested extracted : Nat) : Event
  /-- A call of `ostream::write` with the given bytes. -/
  | write (bytes : List Byte) : Event
  deriving DecidableEq, Repr

/-- The result of running a routine. -/
inductive Outcome (α : Type) where
  /-- The routine returned `value` after performing `trace`. -/
  | returned (value : α) (trace : List Event) : Outcome α
  /-- The routine has undefined behaviour on this input. -/
  | undefined : Outcome α
  deriving DecidableEq, Repr

/-- The file system as the routines see it. `file p` is the content an input stream
opened on `p` reads, `none` when `p` cannot be opened for reading; `canCreate p` tells
whether an output stream can be opened on `p` (creating or truncating the file). -/
structure FileSystem where
  file : Path → Option (List Byte)
  canCreate : Path → Bool

/-- The file system after an output stream on `p` was closed with `bytes` written. -/
def FileSystem.store (fs : FileSystem) (p : Path) (bytes : List Byte) : FileSystem :=
  { file := fun q => if q = p then some bytes else fs.file q
    canCreate := fs.canCreate }

/-- The state of a `std::ifstream`. -/
structure IFStream where
  /-- Result of `is_open()`. -/
  is_open : Bool
  /-- Neither `failbit` nor `eofbit` is set. -/
  good : Bool
  /-- The whole content of the file. -/
  content : List Byte
  /-- The bytes from the read position to the end of the file. -/
  rest : List Byte
  deriving DecidableEq, Repr

/-- The constructor `std::ifstream(filename, std::ios::binary)`: a failed open sets `failbit`. -/
def IFStream.openFile (fs : FileSystem) (filename : Path) : IFStream :=
  match fs.file filename with
  | some bytes => { is_open := true, good := true, content := bytes, rest := bytes }
  | none => { is_open := false, good := false, content := [], rest := [] }

/-- The call `seekg(0, std::ios::end)` on an open stream. -/
def IFStream.seekEnd (s : IFStream) : IFStream := { s with rest := [] }

/-- The call `seekg(0, std::ios::beg)` on an open stream. -/
def IFStream.seekBeg (s : IFStream) : IFStream := { s with rest := s.content }

/-- The call `tellg()` on an open stream. -/
def IFStream.tell (s : IFStream) : Nat := s.content.length - s.rest.length

/-- The call `read(buf, n)`: when the stream is good it copies the next bytes, at most `n`,
over the start of `buf` and, if fewer than `n` were available, sets `failbit | eofbit`;
when the stream is not good nothing is extracted and `buf` is left as it was.
Returns the buffer, the stream and the trace event. -/
def IFStream.read (s : IFStream) (buf : List Byte) (n : Nat) : List Byte × IFStream × Event :=
  if s.good then
    let got := s.rest.take n
    (got ++ buf.drop got.length,
     { s with rest := s.rest.drop n, good := decide (n ≤ s.rest.length) },
     Event.read n got.length)
  else
    (buf, s, Event.read n 0)

/-- The state of a `std::ofstream` that was opened: the bytes written so far. -/
structure OFStream where
  written : List Byte
  deriving DecidableEq, Repr

/-- The call `write(p, n)` on an open output stream, with the `n` bytes at `p`. -/
def OFStream.write (s : OFStream) (bytes : List Byte) : OFStream × Event :=
  ({ written := s.written ++ bytes }, Event.write bytes)

/-! ## The index object -/

/-- Modelled from the spec: the segment type of `pgm/pgm_index.hpp`, which is not part of
the sources at hand. A segment is an opaque record whose only field observed by the
persistence routines is its representative key, of type `K`. -/
structure Segment where
  key : Nat
  deriving DecidableEq, Repr

/-- Modelled from the spec: the index type `pgm::PGMIndex<K, Epsilon>` of
`pgm/pgm_index.hpp`, which is not part of the sources at hand. It exposes the ordered
sequence of segments of all levels and the level-offset table (`std::vector<size_t>`). -/
structure PGMIndex where
  segments : List Segment
  levels_offsets : List Nat
  deriving DecidableEq, Repr

/-- Modelled from the spec: what the external index builder guarantees of an index built
from a non-empty key sequence. The level-offset table has an entry for the start of level 0
and at least one further boundary, starts at 0, is strictly increasing and ends at the
total number of segments; every key fits the key type of width `W` and the number of
segments fits `size_t`. -/
def BuiltIndex (W : Nat) (index : PGMIndex) : Prop :=
  2 ≤ index.levels_offsets.length ∧
  index.levels_offsets.head? = some 0 ∧
  index.levels_offsets.Pairwise (fun a b => a < b) ∧
  index.levels_offsets.getLast? = some index.segments.length ∧
  (∀ s ∈ index.segments, s.key < 2 ^ (8 * W)) ∧
  index.segments.length < 2 ^ 64

instance (W : Nat) (index : PGMIndex) : Decidable (BuiltIndex W index) := by
  unfold BuiltIndex; infer_instance

/-! ## The routines of `simple.cpp` -/

/-- The statement `keys.assign(keys.begin() + 1, keys.end())`: the vector keeps all its
elements but the first (the range is taken from the vector itself and is copied towards
its start). On an empty vector `begin() + 1` lies past `end()` and the behaviour is
undefined, which is `none`. -/
def assignFromSecond (keys : List Nat) : Option (List Nat) :=
  match keys with
  | [] => none
  | _ :: tl => some tl

/-- The routine `readKeysFromFile<K>(filename, max_keys)` with `W = sizeof(K)`; the
parameter `max_keys` is not used by the body and is left out. -/
def readKeysFromFile (W : Nat) (fs : FileSystem) (filename : Path) : Outcome (List Nat) :=
  let keys : List Nat := []
  let file := IFStream.openFile fs filename
  if !file.is_open then
    Outcome.returned keys [Event.cerr]
  else
    let file := file.seekEnd
    let fileSize := file.tell
    let file := file.seekBeg
    let num_keys := fileSize / W
    -- keys.resize(num_keys): value-initialised elements
    let keys := keys ++ List.replicate (num_keys - keys.length) 0
    let (buf, _, ev) := file.read (vectorBytes W keys) (num_keys * W)
    let keys := bytesVector W num_keys buf
    match assignFromSecond keys with
    | none => Outcome.undefined
    | some keys => Outcome.returned keys [ev, Event.cout]

/-- The loop `for (const auto& segment : index.segments) out.write(&segment.key, sizeof(K))`. -/
def writeSegments (W : Nat) : List Segment → OFStream → OFStream × List Event
  | [], out => (out, [])
  | segment :: more, out =>
    let (out, ev) := out.write (encodeLE W segment.key)
    let (out, evs) := writeSegments W more out
    (out, ev :: evs)

/-- The initialiser `index.levels_offsets[1] - 1` of the `uint64_t segments_count`: a
subtraction in `size_t`, which wraps around at `2 ^ 64`. -/
def segmentsCount (offset1 : Nat) : Nat :=
  (offset1 % 2 ^ 64 + 2 ^ 64 - 1) % 2 ^ 64

/-- The routine `saveSegmentsToFile<K, Epsilon>(index, filename)` with `W = sizeof(K)`.
The value returned is the file system after the call; a write to an opened output stream
is taken to succeed. Reading `sizeof(K)` bytes out of the 8-byte `segments_count` stays
inside the object only for `W ≤ 8`. -/
def saveSegmentsToFile (W : Nat) (index : PGMIndex) (fs : FileSystem) (filename : Path) :
    Outcome FileSystem :=
  if !fs.canCreate filename then
    Outcome.returned fs [Event.cerr]
  else
    let out : OFStream := { written := [] }
    -- index.levels_offsets[1]: unchecked element access
    match index.levels_offsets.get? 1 with
    | none => Outcome.undefined
    | some offset1 =>
      let segments_count := segmentsCount offset1
      -- the first sizeof(K) bytes of the 8-byte object segments_count
      if 8 < W then Outcome.undefined
      else
        let (out, ev) := out.write ((encodeLE 8 segments_count).take W)
        let (out, evs) := writeSegments W index.segments out
        Outcome.returned (fs.store filename out.written) (ev :: evs ++ [Event.cout])

/-- The loop of `loadSegmentsFromFile`: `k` further iterations starting at counter `i`,
each declaring `K key`, reading `sizeof(K)` bytes over it and appending it. -/
def loadLoop (W : Nat) (junk : Nat → Nat) : Nat → Nat → IFStream → List Nat × List Event
  | 0, _, _ => ([], [])
  | k + 1, i, inp =>
    let key := encodeLE W (junk (i + 1))
    let (key, inp, ev) := inp.read key W
    let (segKeys, evs) := loadLoop W junk k (i + 1) inp
    (decodeLE key :: segKeys, ev :: evs)

/-- The routine `loadSegmentsFromFile<K>(filename)` with `W = sizeof(K)`. The indeterminate
initial value of `size` is `junk 0`, that of `key` in iteration `i` is `junk (i + 1)`. -/
def loadSegmentsFromFile (W : Nat) (junk : Nat → Nat) (fs : FileSystem) (filename : Path) :
    Outcome (List Nat) :=
  let inp := IFStream.openFile fs filename
  let ev0 := if !inp.is_open then [Event.cerr] else []
  let size := encodeLE W (junk 0)
  let (size, inp, ev1) := inp.read size W
  let size := decodeLE size
  let (segKeys, evs) := loadLoop W junk size 0 inp
  Outcome.returned segKeys (ev0 ++ ev1 :: evs ++ [Event.cout])

/-! ## Examples of the embedding at work -/

/-- A file system with a single readable file. -/
def FileSystem.single (p : Path) (bytes : List Byte) : FileSystem :=
  { file := fun q => if q = p then some bytes else none
    canCreate := fun _ => true }

/-- A file system without any file, on which every path can be created. -/
def FileSystem.scratch : FileSystem :=
  { file := fun _ => none
    canCreate := fun _ => true }

/-- A file system without any file, on which nothing can be created. -/
def FileSystem.sealed : FileSystem :=
  { file := fun _ => none
    canCreate := fun _ => false }

/-- An index with three segments in one level. -/
def sampleIndex : PGMIndex :=
  { segments := [⟨10⟩, ⟨20⟩, ⟨30⟩], levels_offsets := [0, 3] }

/-- The value a routine returned, when it returned. -/
def Outcome.value? {α : Type} : Outcome α → Option α
  | Outcome.returned value _ => some value
  | Outcome.undefined => none

/-- The trace of a routine that returned. -/
def Outcome.trace {α : Type} : Outcome α → List Event
  | Outcome.returned _ trace => trace
  | Outcome.undefined => []

/-- The two calls at the end of `main`: the index is saved to `filename` and the
segment keys are loaded back from the same file. -/
def saveThenLoad (W : Nat) (junk : Nat → Nat) (index : PGMIndex) (fs : FileSystem)
    (filename : Path) : Outcome (List Nat) :=
  match saveSegmentsToFile W index fs filename with
  | Outcome.undefined => Outcome.undefined
  | Outcome.returned fs1 saved =>
    match loadSegmentsFromFile W junk fs1 filename with
    | Outcome.undefined => Outcome.undefined
    | Outcome.returned loaded_index loaded => Outcome.returned loaded_index (saved ++ loaded)

/-- A key file for 8-byte keys: the header record 3 followed by the keys 5, 10, 15. -/
def sampleKeyFile : List Byte :=
  encodeLE 8 3 ++ vectorBytes 8 [5, 10, 15]

/-- A key file for 8-byte keys cut short: the header record 1, the key 42 and three bytes
of a further record. -/
def truncatedKeyFile : List Byte :=
  encodeLE 8 1 ++ encodeLE 8 42 ++ [1, 2, 3]

/-- A segment file for 8-byte keys: the count 2, the keys 10, 20, 30 and one further byte. -/
def sampleSegmentFile : List Byte :=
  encodeLE 8 2 ++ vectorBytes 8 [10, 20, 30] ++ [7]

/-- A segment file for 2-byte keys cut short: the count 3, the key 1 and one byte of a
further key. -/
def shortSegmentFile : List Byte :=
  [3, 0, 1, 0, 2]

/-- An index with two levels: three segments in level 0 and one in level 1. -/
def twoLevelIndex : PGMIndex :=
  { segments := [⟨10⟩, ⟨20⟩, ⟨30⟩, ⟨10⟩], levels_offsets := [0, 3, 4] }

/-! ## Facts about the byte encoding -/

theorem encodeLE_length (w v : Nat) : (encodeLE w v).length = w := by
  induction w generalizing v with
  | zero => rfl
  | succ w ih => simp [encodeLE, ih]

theorem decodeLE_encodeLE (w v : Nat) : decodeLE (encodeLE w v) = v % 2 ^ (8 * w) := by
  induction w generalizing v with
  | zero => simp [encodeLE, decodeLE, Nat.mod_one]
  | succ w ih =>
    simp only [encodeLE, decodeLE, ih]
    have h : 2 ^ (8 * (w + 1)) = 256 * 2 ^ (8 * w) := by
      rw [Nat.mul_add, Nat.pow_add]; norm_num; ring
    rw [h, Nat.mod_mul]

theorem vectorBytes_length (W : Nat) (keys : List Nat) :
    (vectorBytes W keys).length = keys.length * W := by
  induction keys with
  | nil => simp [vectorBytes]
  | cons k ks ih =>
    simp only [vectorBytes, List.map_cons, List.flatten_cons, List.length_append,
      encodeLE_length, List.length_cons] at ih ⊢
    rw [ih]; ring

theorem record_take (W m i : Nat) (buf : List Byte) (h : i < m) :
    record W (buf.take (m * W)) i = record W buf i := by
  unfold record
  rw [List.drop_take, List.take_take]
  have : (i + 1) * W ≤ m * W := Nat.mul_le_mul_right W h
  have h2 : (i + 1) * W = i * W + W := by ring
  have h3 : min W (m * W - i * W) = W := by omega
  rw [h3]

theorem bytesVector_take (W m : Nat) (buf : List Byte) :
    bytesVector W m (buf.take (m * W)) = bytesVector W m buf := by
  unfold bytesVector
  apply List.map_congr_left
  intro i hi
  exact record_take W m i buf (List.mem_range.mp hi)

theorem bytesVector_succ (W n : Nat) (buf : List Byte) :
    bytesVector W (n + 1) buf
      = record W buf 0 :: (List.range n).map (fun j => record W buf (j + 1)) := by
  unfold bytesVector
  rw [List.range_succ_eq_map]
  simp [List.map_map, Function.comp_def]

/-! ## Facts about `readKeysFromFile` -/

/-- What `readKeysFromFile` does on a file that can be opened: the buffer is filled with
the whole records of the file and the first element is dropped. -/
theorem readKeysFromFile_open (W : Nat) (fs : FileSystem) (filename : Path)
    (bytes : List Byte) (hopen : fs.file filename = some bytes) :
    readKeysFromFile W fs filename =
      match assignFromSecond (bytesVector W (bytes.length / W) bytes) with
      | none => Outcome.undefined
      | some keys =>
        Outcome.returned keys
          [Event.read (bytes.length / W * W) (bytes.length / W * W), Event.cout] := by
  have hle : bytes.length / W * W ≤ bytes.length := Nat.div_mul_le_self _ _
  simp only [readKeysFromFile, IFStream.openFile, hopen, IFStream.seekEnd, IFStream.seekBeg,
    IFStream.tell, IFStream.read, List.length_nil, Nat.sub_zero, List.nil_append,
    Bool.not_true, Bool.false_eq_true, if_false, if_true, List.length_take,
    Nat.min_eq_left hle]
  rw [List.drop_of_length_le (by simp [vectorBytes_length]), List.append_nil,
    bytesVector_take]

/-! ## Facts about the streams and the persistence routines -/

theorem take_encodeLE (w k v : Nat) : (encodeLE (w + k) v).take w = encodeLE w v := by
  induction w generalizing v with
  | zero => simp [encodeLE]
  | succ w ih =>
    rw [Nat.add_right_comm]
    simp [encodeLE, ih]

/-- A read of `n` bytes from a good stream that has them replaces a buffer of `n` bytes. -/
theorem IFStream.read_whole (s : IFStream) (buf got more : List Byte) (n : Nat)
    (hgood : s.good = true) (hrest : s.rest = got ++ more) (hgot : got.length = n)
    (hbuf : buf.length ≤ n) :
    s.read buf n = (got, { s with rest := more, good := true }, Event.read n n) := by
  have htake : List.take n (got ++ more) = got := by
    rw [← hgot]; exact List.take_left' rfl
  have hdrop : List.drop n (got ++ more) = more := by
    rw [← hgot]; exact List.drop_left' rfl
  have hlen : n ≤ got.length + more.length := by omega
  simp only [IFStream.read, hgood, if_true, hrest, htake, hdrop, hgot]
  rw [List.drop_of_length_le hbuf]
  simp [hlen]

theorem writeSegments_written (W : Nat) (segments : List Segment) (out : OFStream) :
    (writeSegments W segments out).1.written
      = out.written ++ vectorBytes W (segments.map Segment.key) := by
  induction segments generalizing out with
  | nil => simp [writeSegments, vectorBytes]
  | cons segment more ih =>
    simp only [writeSegments, OFStream.write, ih]
    simp [vectorBytes, List.append_assoc]

theorem writeSegments_trace (W : Nat) (segments : List Segment) (out : OFStream) :
    (writeSegments W segments out).2
      = segments.map (fun segment => Event.write (encodeLE W segment.key)) := by
  induction segments generalizing out with
  | nil => simp [writeSegments]
  | cons segment more ih =>
    simp only [writeSegments, OFStream.write, ih]
    simp

/-- What `saveSegmentsToFile` does when the output file can be opened and the level-offset
table has a second entry: the file holds the count field and then one key per segment. -/
theorem saveSegmentsToFile_open (W : Nat) (hW8 : W ≤ 8) (index : PGMIndex) (fs : FileSystem)
    (filename : Path) (offset1 : Nat) (hcreate : fs.canCreate filename = true)
    (hoff : index.levels_offsets.get? 1 = some offset1) :
    saveSegmentsToFile W index fs filename
      = Outcome.returned
          (fs.store filename
            (encodeLE W (segmentsCount offset1)
              ++ vectorBytes W (index.segments.map Segment.key)))
          (Event.write (encodeLE W (segmentsCount offset1))
            :: index.segments.map (fun segment => Event.write (encodeLE W segment.key))
            ++ [Event.cout]) := by
  obtain ⟨k, hk⟩ : ∃ k, 8 = W + k := ⟨8 - W, by omega⟩
  have htake : (encodeLE 8 (segmentsCount offset1)).take W
      = encodeLE W (segmentsCount offset1) := by
    rw [hk]; exact take_encodeLE W k _
  have hnot : ¬ 8 < W := by omega
  simp only [saveSegmentsToFile, hcreate, hoff, OFStream.write, Bool.not_true,
    Bool.false_eq_true, if_false, hnot, List.nil_append]
  rw [htake, writeSegments_written, writeSegments_trace]

theorem loadLoop_length (W : Nat) (junk : Nat → Nat) (k i : Nat) (inp : IFStream) :
    (loadLoop W junk k i inp).1.length = k := by
  induction k generalizing i inp with
  | zero => rfl
  | succ k ih => simp [loadLoop, ih]

/-- On a good stream positioned before the encoding of at least `k` keys, the loop of
`loadSegmentsFromFile` returns the first `k` of them. -/
theorem loadLoop_keys (W : Nat) (junk : Nat → Nat) (k i : Nat) (inp : IFStream)
    (keys : List Nat) (more : List Byte) (hgood : inp.good = true)
    (hrest : inp.rest = vectorBytes W keys ++ more) (hk : k ≤ keys.length)
    (hfit : ∀ key ∈ keys, key < 2 ^ (8 * W)) :
    (loadLoop W junk k i inp).1 = keys.take k := by
  induction k generalizing i inp keys with
  | zero => simp [loadLoop]
  | succ k ih =>
    match keys, hk, hrest, hfit with
    | key :: keys, hk, hrest, hfit =>
      have hrest2 : inp.rest = encodeLE W key ++ (vectorBytes W keys ++ more) := by
        rw [hrest]; simp [vectorBytes, List.append_assoc]
      have hread := IFStream.read_whole inp (encodeLE W (junk (i + 1))) (encodeLE W key)
        (vectorBytes W keys ++ more) W hgood hrest2 (encodeLE_length W key)
        (by rw [encodeLE_length])
      simp only [loadLoop, hread, List.take_succ_cons]
      rw [ih (i + 1) { inp with rest := vectorBytes W keys ++ more, good := true } keys rfl rfl
        (by simpa using hk) (fun x hx => hfit x (List.mem_cons_of_mem _ hx)),
        decodeLE_encodeLE, Nat.mod_eq_of_lt (hfit key (List.mem_cons_self _ _))]

/-- What `loadSegmentsFromFile` does on a file that can be opened and starts with a whole
count field: the loop runs as many times as the count field says. -/
theorem loadSegmentsFromFile_open (W : Nat) (junk : Nat → Nat) (fs : FileSystem)
    (filename : Path) (header more : List Byte)
    (hopen : fs.file filename = some (header ++ more)) (hheader : header.length = W) :
    loadSegmentsFromFile W junk fs filename
      = Outcome.returned
          (loadLoop W junk (decodeLE header) 0
            { is_open := true, good := true, content := header ++ more, rest := more }).1
          (Event.read W W ::
            (loadLoop W junk (decodeLE header) 0
              { is_open := true, good := true, content := header ++ more, rest := more }).2
            ++ [Event.cout]) := by
  have hread := IFStream.read_whole
    { is_open := true, good := true, content := header ++ more, rest := header ++ more }
    (encodeLE W (junk 0)) header more W rfl rfl hheader (by rw [encodeLE_length])
  simp only [loadSegmentsFromFile, IFStream.openFile, hopen, hread]
  simp

theorem FileSystem.store_file (fs : FileSystem) (p : Path) (bytes : List Byte) :
    (fs.store p bytes).file p = some bytes := by
  simp [FileSystem.store]

/-- In a built index the second entry of the level-offset table exists, is at least 1 and
at most the number of segments. -/
theorem BuiltIndex.offset1 {W : Nat} {index : PGMIndex} (hbuilt : BuiltIndex W index) :
    ∃ offset1, index.levels_offsets.get? 1 = some offset1 ∧ 1 ≤ offset1 ∧
      offset1 ≤ index.segments.length := by
  obtain ⟨hlen, hhead, hincr, hlast, -, -⟩ := hbuilt
  match hoffs : index.levels_offsets, hlen, hhead, hincr, hlast with
  | a :: b :: rest, _, hhead, hincr, hlast =>
    refine ⟨b, rfl, ?_, ?_⟩
    · have ha : a = 0 := by simpa using hhead
      have hab : a < b := (List.pairwise_cons.mp hincr).1 b (List.mem_cons_self _ _)
      omega
    · have hb := (List.pairwise_cons.mp (List.pairwise_cons.mp hincr).2).1
      cases rest with
      | nil =>
        have : b = index.segments.length := by simpa using hlast
        omega
      | cons c rest =>
        have hmem : index.segments.length ∈ c :: rest := by
          apply List.mem_of_getLast?_eq_some
          simpa [List.getLast?_cons_cons] using hlast
        exact Nat.le_of_lt (hb _ hmem)

theorem segmentsCount_eq (offset1 : Nat) (h1 : 1 ≤ offset1) (h2 : offset1 < 2 ^ 64) :
    segmentsCount offset1 = offset1 - 1 := by
  unfold segmentsCount
  rw [Nat.mod_eq_of_lt h2]
  have h : offset1 + 2 ^ 64 - 1 = (offset1 - 1) + 2 ^ 64 := by omega
  rw [h, Nat.add_mod_right, Nat.mod_eq_of_lt (by omega)]

/-- What saving and loading back does on a built index: the loader returns the keys of the
first `(levels_offsets[1] - 1) % 2 ^ (8 * W)` segments. -/
theorem saveThenLoad_built (W : Nat) (hW8 : W ≤ 8) (junk : Nat → Nat) (index : PGMIndex)
    (hbuilt : BuiltIndex W index) (fs : FileSystem) (filename : Path)
    (hcreate : fs.canCreate filename = true) :
    ∃ offset1, index.levels_offsets.get? 1 = some offset1 ∧ 1 ≤ offset1 ∧
      offset1 ≤ index.segments.length ∧
      saveSegmentsToFile W index fs filename
        = Outcome.returned
            (fs.store filename
              (encodeLE W (offset1 - 1) ++ vectorBytes W (index.segments.map Segment.key)))
            (Event.write (encodeLE W (offset1 - 1))
              :: index.segments.map (fun segment => Event.write (encodeLE W segment.key))
              ++ [Event.cout]) ∧
      (loadSegmentsFromFile W junk
          (fs.store filename
            (encodeLE W (offset1 - 1) ++ vectorBytes W (index.segments.map Segment.key)))
          filename).value?
        = some ((index.segments.map Segment.key).take ((offset1 - 1) % 2 ^ (8 * W))) := by
  obtain ⟨offset1, hoff, h1, h2⟩ := hbuilt.offset1
  have hsize : index.segments.length < 2 ^ 64 := hbuilt.2.2.2.2.2
  have hfit : ∀ key ∈ index.segments.map Segment.key, key < 2 ^ (8 * W) := by
    intro key hkey
    obtain ⟨segment, hmem, rfl⟩ := List.mem_map.mp hkey
    exact hbuilt.2.2.2.2.1 segment hmem
  have hcount := segmentsCount_eq offset1 h1 (by omega)
  have hsave := saveSegmentsToFile_open W hW8 index fs filename offset1 hcreate hoff
  rw [hcount] at hsave
  refine ⟨offset1, hoff, h1, h2, hsave, ?_⟩
  have hle : (offset1 - 1) % 2 ^ (8 * W) ≤ (index.segments.map Segment.key).length := by
    have := Nat.mod_le (offset1 - 1) (2 ^ (8 * W))
    rw [List.length_map]; omega
  rw [loadSegmentsFromFile_open W junk _ filename (encodeLE W (offset1 - 1))
      (vectorBytes W (index.segments.map Segment.key)) (FileSystem.store_file _ _ _)
      (encodeLE_length W _)]
  simp only [Outcome.value?, decodeLE_encodeLE]
  rw [loadLoop_keys W junk _ 0 _ (index.segments.map Segment.key) [] rfl (by simp) hle hfit]

/-! ## Saving and loading segments -/

/-- C1, as the claim states it, fails: for the built index with the segment keys 10, 20, 30
in one level, saving and loading back returns 10, 20 and not the keys of all segments. -/
theorem saveThenLoad_values_counterexample :
    BuiltIndex 8 sampleIndex ∧ FileSystem.scratch.canCreate "pgm_segments.bin" = true ∧
      (saveThenLoad 8 (fun _ => 0) sampleIndex FileSystem.scratch "pgm_segments.bin").value?
        = some [10, 20] ∧
      (saveThenLoad 8 (fun _ => 0) sampleIndex FileSystem.scratch "pgm_segments.bin").value?
        ≠ some (sampleIndex.segments.map Segment.key) := by
  refine ⟨by decide, by rfl, by rfl, by decide⟩

/-- C1, amended. For every index built from a non-empty key sequence whose count
`levels_offsets[1] - 1` fits a field of `W` bytes, loading back the file written by
`saveSegmentsToFile` returns exactly the first `levels_offsets[1] - 1` representative keys
of the segment sequence, in order and with the same value at every position; these are
fewer keys than the index has segments. -/
theorem saveThenLoad_values (W : Nat) (hW : 0 < W) (hW8 : W ≤ 8) (junk : Nat → Nat)
    (index : PGMIndex) (hbuilt : BuiltIndex W index) (fs : FileSystem) (filename : Path)
    (hcreate : fs.canCreate filename = true) (offset1 : Nat)
    (hoff : index.levels_offsets.get? 1 = some offset1)
    (hfit : offset1 - 1 < 2 ^ (8 * W)) :
    (saveThenLoad W junk index fs filename).value?
        = some ((index.segments.map Segment.key).take (offset1 - 1)) ∧
      ((index.segments.map Segment.key).take (offset1 - 1)).length = offset1 - 1 ∧
      offset1 - 1 < (index.segments.map Segment.key).length := by
  obtain ⟨offset, hoff2, h1, h2, hsave, hload⟩ :=
    saveThenLoad_built W hW8 junk index hbuilt fs filename hcreate
  obtain rfl : offset = offset1 := Option.some.inj (hoff2.symm.trans hoff)
  have hpos : 0 < W := hW
  have hlt : offset - 1 < (index.segments.map Segment.key).length := by
    rw [List.length_map]; omega
  refine ⟨?_, ?_, hlt⟩
  · rw [Nat.mod_eq_of_lt hfit] at hload
    rw [← hload]
    simp only [saveThenLoad, hsave]
    cases loadSegmentsFromFile W junk
      (fs.store filename
        (encodeLE W (offset - 1) ++ vectorBytes W (index.segments.map Segment.key)))
      filename <;> rfl
  · rw [List.length_take]; omega

/-- C1, amended, at the index with the segment keys 10, 20, 30 in one level: the keys 10, 20
are returned. -/
theorem saveThenLoad_values_witness :
    (0 < 8 ∧ 8 ≤ 8 ∧ BuiltIndex 8 sampleIndex ∧
        FileSystem.scratch.canCreate "pgm_segments.bin" = true ∧
        sampleIndex.levels_offsets.get? 1 = some 3 ∧ 3 - 1 < 2 ^ (8 * 8)) ∧
      (saveThenLoad 8 (fun _ => 0) sampleIndex FileSystem.scratch "pgm_segments.bin").value?
          = some ((sampleIndex.segments.map Segment.key).take (3 - 1)) ∧
        ((sampleIndex.segments.map Segment.key).take (3 - 1)).length = 3 - 1 ∧
        3 - 1 < (sampleIndex.segments.map Segment.key).length :=
  ⟨⟨by decide, by decide, by decide, by rfl, by rfl, by decide⟩,
    saveThenLoad_values 8 (by decide) (by decide) (fun _ => 0) sampleIndex (by decide)
      FileSystem.scratch "pgm_segments.bin" (by rfl) 3 (by rfl) (by decide)⟩

/-- C2. Round trip of the count: for every built index, `saveSegmentsToFile` writes the
count field first, and `loadSegmentsFromFile` on the file it produced returns a sequence
whose length is the value of that count field (record 0 of the file). -/
theorem saveThenLoad_count (W : Nat) (hW : 0 < W) (hW8 : W ≤ 8) (junk : Nat → Nat)
    (index : PGMIndex) (hbuilt : BuiltIndex W index) (fs : FileSystem) (filename : Path)
    (hcreate : fs.canCreate filename = true) :
    ∃ (fs1 : FileSystem) (saved : List Event) (bytes : List Byte) (segKeys : List Nat)
      (loaded : List Event),
      saveSegmentsToFile W index fs filename = Outcome.returned fs1 saved ∧
      fs1.file filename = some bytes ∧
      saved.head? = some (Event.write (bytes.take W)) ∧
      loadSegmentsFromFile W junk fs1 filename = Outcome.returned segKeys loaded ∧
      segKeys.length = record W bytes 0 := by
  obtain ⟨offset1, -, -, -, hsave, -⟩ :=
    saveThenLoad_built W hW8 junk index hbuilt fs filename hcreate
  have hpos : 0 < W := hW
  have htake : (encodeLE W (offset1 - 1)
      ++ vectorBytes W (index.segments.map Segment.key)).take W = encodeLE W (offset1 - 1) :=
    List.take_left' (encodeLE_length W _)
  have hload := loadSegmentsFromFile_open W junk
    (fs.store filename
      (encodeLE W (offset1 - 1) ++ vectorBytes W (index.segments.map Segment.key)))
    filename (encodeLE W (offset1 - 1)) (vectorBytes W (index.segments.map Segment.key))
    (FileSystem.store_file _ _ _) (encodeLE_length W _)
  refine ⟨_, _, _, _, _, hsave, FileSystem.store_file _ _ _, ?_, hload, ?_⟩
  · rw [htake]; rfl
  · rw [loadLoop_length]
    simp [record, htake]

/-- C2 at the index with the segment keys 10, 20, 30 in one level. -/
theorem saveThenLoad_count_witness :
    (0 < 8 ∧ 8 ≤ 8 ∧ BuiltIndex 8 sampleIndex ∧
        FileSystem.scratch.canCreate "pgm_segments.bin" = true) ∧
      ∃ (fs1 : FileSystem) (saved : List Event) (bytes : List Byte) (segKeys : List Nat)
        (loaded : List Event),
        saveSegmentsToFile 8 sampleIndex FileSystem.scratch "pgm_segments.bin"
          = Outcome.returned fs1 saved ∧
        fs1.file "pgm_segments.bin" = some bytes ∧
        saved.head? = some (Event.write (bytes.take 8)) ∧
        loadSegmentsFromFile 8 (fun _ => 0) fs1 "pgm_segments.bin"
          = Outcome.returned segKeys loaded ∧
        segKeys.length = record 8 bytes 0 :=
  ⟨⟨by decide, by decide, by decide, by rfl⟩,
    saveThenLoad_count 8 (by decide) (by decide) (fun _ => 0) sampleIndex (by decide)
      FileSystem.scratch "pgm_segments.bin" (by rfl)⟩

/-- C3. On the built index with the segment keys 10, 20, 30 in one level,
`saveSegmentsToFile` writes the count 2 and then three key records: the count field differs
from the number of key records that follow it. -/
theorem saveSegmentsToFile_count_mismatch :
    BuiltIndex 8 sampleIndex ∧
      ∃ fs1 : FileSystem,
        saveSegmentsToFile 8 sampleIndex FileSystem.scratch "pgm_segments.bin"
          = Outcome.returned fs1
              [Event.write (encodeLE 8 2), Event.write (encodeLE 8 10),
                Event.write (encodeLE 8 20), Event.write (encodeLE 8 30), Event.cout] ∧
        fs1.file "pgm_segments.bin" = some (encodeLE 8 2 ++ vectorBytes 8 [10, 20, 30]) ∧
        record 8 (encodeLE 8 2 ++ vectorBytes 8 [10, 20, 30]) 0 = 2 ∧
        ((encodeLE 8 2 ++ vectorBytes 8 [10, 20, 30]).length - 8) / 8 = 3 := by
  refine ⟨by decide, _, rfl, by rfl, by decide, by decide⟩

/-- C9. On a path that cannot be opened, `loadSegmentsFromFile` writes its diagnostic and
goes on: it calls `read` on the unopened stream for the count and, the variable `size`
holding the indeterminate value 2, twice more for keys, and returns two keys. -/
theorem loadSegmentsFromFile_unopenable_reads :
    FileSystem.sealed.file "pgm_segments.bin" = none ∧
      loadSegmentsFromFile 8 (fun _ => 2) FileSystem.sealed "pgm_segments.bin"
        = Outcome.returned [2, 2]
            [Event.cerr, Event.read 8 0, Event.read 8 0, Event.read 8 0, Event.cout] := by
  refine ⟨by rfl, by decide⟩

/-- C10. Unopenable output file: when the output path cannot be opened for writing,
`saveSegmentsToFile` writes its diagnostic and returns; the file system is as before and
no call of `write` was made, for the count field or for a key. -/
theorem saveSegmentsToFile_unopenable (W : Nat) (index : PGMIndex) (fs : FileSystem)
    (filename : Path) (hclosed : fs.canCreate filename = false) :
    saveSegmentsToFile W index fs filename = Outcome.returned fs [Event.cerr] ∧
      ∀ bytes : List Byte,
        Event.write bytes ∉ (saveSegmentsToFile W index fs filename).trace := by
  have hrun : saveSegmentsToFile W index fs filename = Outcome.returned fs [Event.cerr] := by
    simp [saveSegmentsToFile, hclosed]
  refine ⟨hrun, ?_⟩
  intro bytes
  rw [hrun]
  simp [Outcome.trace]

/-- C10 at a concrete input: the sample index and a file system on which nothing can be
created. -/
theorem saveSegmentsToFile_unopenable_witness :
    FileSystem.sealed.canCreate "pgm_segments.bin" = false ∧
      saveSegmentsToFile 8 sampleIndex FileSystem.sealed "pgm_segments.bin"
        = Outcome.returned FileSystem.sealed [Event.cerr] :=
  ⟨by rfl,
    (saveSegmentsToFile_unopenable 8 sampleIndex FileSystem.sealed "pgm_segments.bin"
      (by rfl)).1⟩

/-! ## The key loader -/

/-- C4. Header skip: on a key file that can be opened, whose length is `n * W` with
`n ≥ 1`, `readKeysFromFile` returns exactly the records `1 .. n-1` of the file, decoded as
`W`-byte unsigned integers in file order; the result has length `(file length / W) - 1`
and record 0, the header, is not part of it. -/
theorem readKeysFromFile_header_skip (W : Nat) (hW : 0 < W) (fs : FileSystem)
    (filename : Path) (bytes : List Byte) (n : Nat)
    (hopen : fs.file filename = some bytes) (hn : 1 ≤ n) (hlen : bytes.length = n * W) :
    ∃ keys : List Nat,
      readKeysFromFile W fs filename
        = Outcome.returned keys [Event.read (n * W) (n * W), Event.cout] ∧
      keys.length = bytes.length / W - 1 ∧
      keys = (List.range (n - 1)).map (fun j => record W bytes (j + 1)) := by
  have hdiv : bytes.length / W = n := by rw [hlen]; exact Nat.mul_div_cancel n hW
  obtain ⟨m, rfl⟩ : ∃ m, n = m + 1 := ⟨n - 1, by omega⟩
  refine ⟨(List.range m).map (fun j => record W bytes (j + 1)), ?_, ?_, ?_⟩
  · rw [readKeysFromFile_open W fs filename bytes hopen, hdiv, bytesVector_succ]
    rfl
  · simp [hdiv]
  · simp

/-- C4, the example of the specification: the header 3 followed by the keys 5, 10, 15,
all 8 bytes wide, loads as 5, 10, 15. -/
theorem readKeysFromFile_header_skip_witness :
    (0 < 8 ∧ (FileSystem.single "keys.bin" sampleKeyFile).file "keys.bin" = some sampleKeyFile
        ∧ 1 ≤ 4 ∧ sampleKeyFile.length = 4 * 8) ∧
      readKeysFromFile 8 (FileSystem.single "keys.bin" sampleKeyFile) "keys.bin"
        = Outcome.returned [5, 10, 15] [Event.read 32 32, Event.cout] := by
  refine ⟨⟨by decide, by rfl, by decide, by rfl⟩, ?_⟩
  obtain ⟨keys, hret, -, hkeys⟩ :=
    readKeysFromFile_header_skip 8 (by decide) (FileSystem.single "keys.bin" sampleKeyFile)
      "keys.bin" sampleKeyFile 4 (by rfl) (by decide) (by rfl)
  rw [hret, hkeys]
  rfl

/-- C5. Truncated key file: on a key file that can be opened, holds at least `W` bytes and
whose size is not a multiple of `W`, `readKeysFromFile` returns `size / W - 1` keys, asks
the stream for the whole records only, and returns what it returns on any file that holds
just these whole records (the same file without its trailing partial record). -/
theorem readKeysFromFile_truncated (W : Nat) (hW : 0 < W) (fs : FileSystem)
    (filename : Path) (bytes : List Byte)
    (hopen : fs.file filename = some bytes) (hsize : W ≤ bytes.length)
    (hpart : bytes.length % W ≠ 0) :
    ∃ keys : List Nat,
      readKeysFromFile W fs filename
        = Outcome.returned keys
            [Event.read (bytes.length / W * W) (bytes.length / W * W), Event.cout] ∧
      keys.length = bytes.length / W - 1 ∧
      bytes.length / W * W < bytes.length ∧
      ∀ (fs2 : FileSystem) (filename2 : Path),
        fs2.file filename2 = some (bytes.take (bytes.length / W * W)) →
        readKeysFromFile W fs2 filename2 = readKeysFromFile W fs filename := by
  have hle : bytes.length / W * W ≤ bytes.length := Nat.div_mul_le_self _ _
  have hpos : 1 ≤ bytes.length / W := (Nat.le_div_iff_mul_le hW).mpr (by simpa using hsize)
  obtain ⟨m, hm⟩ : ∃ m, bytes.length / W = m + 1 := ⟨bytes.length / W - 1, by omega⟩
  have hrun := readKeysFromFile_open W fs filename bytes hopen
  rw [hm, bytesVector_succ] at hrun
  refine ⟨(List.range m).map (fun j => record W bytes (j + 1)), ?_, ?_, ?_, ?_⟩
  · rw [hrun, hm]; rfl
  · simp [hm]
  · have := Nat.div_add_mod bytes.length W
    have h2 : W * (bytes.length / W) = bytes.length / W * W := Nat.mul_comm _ _
    have h3 : 0 < bytes.length % W := Nat.pos_of_ne_zero hpart
    omega
  · intro fs2 filename2 hopen2
    have hlen2 : (bytes.take (bytes.length / W * W)).length = bytes.length / W * W := by
      rw [List.length_take]; exact Nat.min_eq_left hle
    rw [readKeysFromFile_open W fs2 filename2 _ hopen2,
      readKeysFromFile_open W fs filename bytes hopen, hlen2,
      Nat.mul_div_cancel _ hW, bytesVector_take]

/-- C5 at a concrete file: 19 bytes for 8-byte keys, two whole records and three more
bytes; the key 42 is returned. -/
theorem readKeysFromFile_truncated_witness :
    (0 < 8 ∧ (FileSystem.single "keys.bin" truncatedKeyFile).file "keys.bin"
          = some truncatedKeyFile
        ∧ 8 ≤ truncatedKeyFile.length ∧ truncatedKeyFile.length % 8 ≠ 0) ∧
      ∃ keys : List Nat,
        readKeysFromFile 8 (FileSystem.single "keys.bin" truncatedKeyFile) "keys.bin"
          = Outcome.returned keys
              [Event.read (truncatedKeyFile.length / 8 * 8) (truncatedKeyFile.length / 8 * 8),
                Event.cout] ∧
        keys.length = truncatedKeyFile.length / 8 - 1 ∧
        truncatedKeyFile.length / 8 * 8 < truncatedKeyFile.length ∧
        ∀ (fs2 : FileSystem) (filename2 : Path),
          fs2.file filename2 = some (truncatedKeyFile.take (truncatedKeyFile.length / 8 * 8)) →
          readKeysFromFile 8 fs2 filename2
            = readKeysFromFile 8 (FileSystem.single "keys.bin" truncatedKeyFile) "keys.bin" :=
  ⟨⟨by decide, by rfl, by decide, by decide⟩,
    readKeysFromFile_truncated 8 (by decide) (FileSystem.single "keys.bin" truncatedKeyFile)
      "keys.bin" truncatedKeyFile (by rfl) (by decide) (by decide)⟩

/-- C6. Header-only key file: on a key file that can be opened and holds exactly one
record (`W` bytes), the drop-first step is applied to a vector of one element, where it is
defined, and `readKeysFromFile` returns the empty key sequence. -/
theorem readKeysFromFile_header_only (W : Nat) (hW : 0 < W) (fs : FileSystem)
    (filename : Path) (bytes : List Byte)
    (hopen : fs.file filename = some bytes) (hsize : bytes.length = W) :
    readKeysFromFile W fs filename
        = Outcome.returned [] [Event.read W W, Event.cout] ∧
      assignFromSecond (bytesVector W (bytes.length / W) bytes) = some [] := by
  have hdiv : bytes.length / W = 1 := by rw [hsize]; exact Nat.div_self hW
  have hvec : assignFromSecond (bytesVector W 1 bytes) = some [] := by
    rw [bytesVector_succ]; rfl
  refine ⟨?_, by rw [hdiv, hvec]⟩
  rw [readKeysFromFile_open W fs filename bytes hopen, hdiv, hvec]
  simp

/-- C6 at a concrete file: the single 8-byte record 77. -/
theorem readKeysFromFile_header_only_witness :
    (0 < 8 ∧ (FileSystem.single "keys.bin" (encodeLE 8 77)).file "keys.bin"
          = some (encodeLE 8 77) ∧ (encodeLE 8 77).length = 8) ∧
      readKeysFromFile 8 (FileSystem.single "keys.bin" (encodeLE 8 77)) "keys.bin"
        = Outcome.returned [] [Event.read 8 8, Event.cout] :=
  ⟨⟨by decide, by rfl, by rfl⟩,
    (readKeysFromFile_header_only 8 (by decide) (FileSystem.single "keys.bin" (encodeLE 8 77))
      "keys.bin" (encodeLE 8 77) (by rfl) (by rfl)).1⟩

/-- C7. On the empty key file, which has zero records of 8 bytes, `readKeysFromFile` applies
the drop-first step to an empty vector: the behaviour is undefined, no empty sequence is
returned. -/
theorem readKeysFromFile_zero_records_undefined :
    (FileSystem.single "keys.bin" []).file "keys.bin" = some [] ∧
      assignFromSecond (bytesVector 8 (([] : List Byte).length / 8) []) = none ∧
      readKeysFromFile 8 (FileSystem.single "keys.bin" []) "keys.bin" = Outcome.undefined := by
  refine ⟨by rfl, by rfl, by rfl⟩

/-- C8. Unopenable key file: when the path cannot be opened for reading,
`readKeysFromFile` writes its diagnostic and returns the empty key sequence; no call of
`read` is made. -/
theorem readKeysFromFile_unopenable (W : Nat) (fs : FileSystem) (filename : Path)
    (hclosed : fs.file filename = none) :
    readKeysFromFile W fs filename = Outcome.returned [] [Event.cerr] ∧
      ∀ requested extracted : Nat,
        Event.read requested extracted ∉ (readKeysFromFile W fs filename).trace := by
  have hrun : readKeysFromFile W fs filename = Outcome.returned [] [Event.cerr] := by
    simp [readKeysFromFile, IFStream.openFile, hclosed]
  refine ⟨hrun, ?_⟩
  intro requested extracted
  rw [hrun]
  simp [Outcome.trace]

/-- C8 at a concrete input: a path of a file system without files. -/
theorem readKeysFromFile_unopenable_witness :
    FileSystem.sealed.file "keys.bin" = none ∧
      readKeysFromFile 8 FileSystem.sealed "keys.bin" = Outcome.returned [] [Event.cerr] :=
  ⟨by rfl, (readKeysFromFile_unopenable 8 FileSystem.sealed "keys.bin" (by rfl)).1⟩

/-! ## Further facts about records and the loading loop -/

theorem record_zero (W : Nat) (buf : List Byte) : record W buf 0 = decodeLE (buf.take W) := by
  simp [record]

theorem record_drop (W j : Nat) (buf : List Byte) :
    record W (buf.drop W) j = record W buf (j + 1) := by
  unfold record
  rw [List.drop_drop]
  have h : W + j * W = (j + 1) * W := by ring
  rw [h]

theorem bytesVector_vectorBytes (W : Nat) (keys : List Nat) (more : List Byte)
    (hfit : ∀ key ∈ keys, key < 2 ^ (8 * W)) :
    bytesVector W keys.length (vectorBytes W keys ++ more) = keys := by
  induction keys with
  | nil => simp [bytesVector]
  | cons key keys ih =>
    have hsplit : vectorBytes W (key :: keys) ++ more
        = encodeLE W key ++ (vectorBytes W keys ++ more) := by
      simp [vectorBytes, List.append_assoc]
    have hdrop : (encodeLE W key ++ (vectorBytes W keys ++ more)).drop W
        = vectorBytes W keys ++ more := List.drop_left' (encodeLE_length W key)
    have htake : (encodeLE W key ++ (vectorBytes W keys ++ more)).take W
        = encodeLE W key := List.take_left' (encodeLE_length W key)
    rw [List.length_cons, bytesVector_succ, hsplit, record_zero, htake, decodeLE_encodeLE,
      Nat.mod_eq_of_lt (hfit key (List.mem_cons_self _ _))]
    congr 1
    have hrec : ∀ j, record W (encodeLE W key ++ (vectorBytes W keys ++ more)) (j + 1)
        = record W (vectorBytes W keys ++ more) j := by
      intro j; rw [← record_drop, hdrop]
    simp only [hrec]
    exact ih (fun x hx => hfit x (List.mem_cons_of_mem _ hx))

/-- On a good stream that still holds `k` whole records, the loop of `loadSegmentsFromFile`
returns these records in order, each read extracting `W` bytes. -/
theorem loadLoop_records (W : Nat) (junk : Nat → Nat) (k i : Nat) (inp : IFStream)
    (hgood : inp.good = true) (hlen : k * W ≤ inp.rest.length) :
    loadLoop W junk k i inp
      = ((List.range k).map (record W inp.rest), List.replicate k (Event.read W W)) := by
  induction k generalizing i inp with
  | zero => simp [loadLoop]
  | succ k ih =>
    have hmul : (k + 1) * W = k * W + W := by ring
    have hW : W ≤ inp.rest.length := by omega
    have htake : (inp.rest.take W).length = W := by
      rw [List.length_take]; exact Nat.min_eq_left hW
    have hread := IFStream.read_whole inp (encodeLE W (junk (i + 1))) (inp.rest.take W)
      (inp.rest.drop W) W hgood (List.take_append_drop W inp.rest).symm htake
      (by rw [encodeLE_length])
    have hnext := ih (i + 1) { inp with rest := inp.rest.drop W, good := true } rfl
      (by simp only [List.length_drop]; omega)
    simp only [loadLoop, hread, hnext, List.replicate_succ]
    rw [List.range_succ_eq_map, List.map_cons, List.map_map, record_zero]
    simp [Function.comp_def, record_drop]

theorem loadLoop_trace_length (W : Nat) (junk : Nat → Nat) (k i : Nat) (inp : IFStream) :
    (loadLoop W junk k i inp).2.length = k := by
  induction k generalizing i inp with
  | zero => rfl
  | succ k ih => simp [loadLoop, ih]

/-- The wrapped subtraction `levels_offsets[1] - 1` is the plain one for every second entry
from 1 to `2 ^ 64`. -/
theorem segmentsCount_of_pos (offset1 : Nat) (h1 : 1 ≤ offset1) (h2 : offset1 ≤ 2 ^ 64) :
    segmentsCount offset1 = offset1 - 1 := by
  rcases Nat.lt_or_ge offset1 (2 ^ 64) with hlt | hge
  · exact segmentsCount_eq offset1 h1 hlt
  · have : offset1 = 2 ^ 64 := Nat.le_antisymm h2 hge
    subst this
    decide

/-- The count computed by `saveSegmentsToFile` is smaller than `levels_offsets[1]` whenever
that entry is positive. -/
theorem segmentsCount_lt (offset1 : Nat) (h1 : 1 ≤ offset1) : segmentsCount offset1 < offset1 := by
  unfold segmentsCount
  have hmod : offset1 % 2 ^ 64 ≤ offset1 := Nat.mod_le _ _
  have hlt : offset1 % 2 ^ 64 < 2 ^ 64 := Nat.mod_lt _ (by decide)
  rcases Nat.eq_zero_or_pos (offset1 % 2 ^ 64) with hz | hp
  · rw [hz]
    have hdvd : 2 ^ 64 ∣ offset1 := Nat.dvd_of_mod_eq_zero hz
    have hge : 2 ^ 64 ≤ offset1 := Nat.le_of_dvd (by omega) hdvd
    have : (0 + 2 ^ 64 - 1) % 2 ^ 64 = 2 ^ 64 - 1 := by decide
    rw [this]; omega
  · have h : offset1 % 2 ^ 64 + 2 ^ 64 - 1 = (offset1 % 2 ^ 64 - 1) + 2 ^ 64 := by omega
    rw [h, Nat.add_mod_right, Nat.mod_eq_of_lt (by omega)]
    omega

/-- In a level-offset table with at least three entries that starts at 0, increases strictly
and ends at `n`, the second entry exists, is positive and is smaller than `n`. -/
theorem offset1_of_multilevel (offsets : List Nat) (n : Nat) (hlevels : 3 ≤ offsets.length)
    (hzero : offsets.head? = some 0) (hincr : offsets.Pairwise (fun a b => a < b))
    (hlast : offsets.getLast? = some n) :
    ∃ offset1, offsets.get? 1 = some offset1 ∧ 1 ≤ offset1 ∧ offset1 < n := by
  match offsets, hlevels, hzero, hincr, hlast with
  | a :: b :: c :: rest, _, hzero, hincr, hlast =>
    refine ⟨b, rfl, ?_, ?_⟩
    · have ha : a = 0 := by simpa using hzero
      have hab : a < b := (List.pairwise_cons.mp hincr).1 b (List.mem_cons_self _ _)
      omega
    · have hb := (List.pairwise_cons.mp (List.pairwise_cons.mp hincr).2).1
      have hmem : n ∈ c :: rest := by
        apply List.mem_of_getLast?_eq_some
        simpa [List.getLast?_cons_cons] using hlast
      exact hb _ hmem

/-- Saving an index and loading the file back returns the first `levels_offsets[1] - 1`
keys whenever that many keys were written and the count fits the count field. -/
theorem saveThenLoad_prefix (W : Nat) (hW8 : W ≤ 8) (junk : Nat → Nat) (index : PGMIndex)
    (fs : FileSystem) (filename : Path) (hcreate : fs.canCreate filename = true)
    (offset1 : Nat) (hoff : index.levels_offsets.get? 1 = some offset1)
    (h1 : 1 ≤ offset1) (hle : offset1 - 1 ≤ index.segments.length)
    (hfit : offset1 - 1 < 2 ^ (8 * W))
    (hkeys : ∀ segment ∈ index.segments, segment.key < 2 ^ (8 * W)) :
    (saveThenLoad W junk index fs filename).value?
      = some ((index.segments.map Segment.key).take (offset1 - 1)) := by
  have hpow : 2 ^ (8 * W) ≤ 2 ^ 64 := Nat.pow_le_pow_right (by decide) (by omega)
  have hcount := segmentsCount_of_pos offset1 h1 (by omega)
  have hsave := saveSegmentsToFile_open W hW8 index fs filename offset1 hcreate hoff
  rw [hcount] at hsave
  have hfitKeys : ∀ key ∈ index.segments.map Segment.key, key < 2 ^ (8 * W) := by
    intro key hkey
    obtain ⟨segment, hmem, rfl⟩ := List.mem_map.mp hkey
    exact hkeys segment hmem
  have hload := loadSegmentsFromFile_open W junk
    (fs.store filename
      (encodeLE W (offset1 - 1) ++ vectorBytes W (index.segments.map Segment.key)))
    filename (encodeLE W (offset1 - 1)) (vectorBytes W (index.segments.map Segment.key))
    (FileSystem.store_file _ _ _) (encodeLE_length W _)
  simp only [saveThenLoad, hsave, hload, Outcome.value?, decodeLE_encodeLE,
    Nat.mod_eq_of_lt hfit]
  rw [loadLoop_keys W junk _ 0 _ (index.segments.map Segment.key) [] rfl (by simp)
    (by rw [List.length_map]; exact hle) hfitKeys]

/-- What `loadSegmentsFromFile` does on a file that holds the count field and at least as
many whole records as the count field says: it returns these records in file order. -/
theorem loadSegmentsFromFile_records (W : Nat) (junk : Nat → Nat) (fs : FileSystem)
    (filename : Path) (bytes : List Byte) (hopen : fs.file filename = some bytes)
    (hrecords : (record W bytes 0 + 1) * W ≤ bytes.length) :
    loadSegmentsFromFile W junk fs filename
      = Outcome.returned ((List.range (record W bytes 0)).map (fun j => record W bytes (j + 1)))
          (Event.read W W :: List.replicate (record W bytes 0) (Event.read W W)
            ++ [Event.cout]) := by
  have hmul : (record W bytes 0 + 1) * W = record W bytes 0 * W + W := by ring
  have hW : W ≤ bytes.length := by omega
  have htake : (bytes.take W).length = W := by
    rw [List.length_take]; exact Nat.min_eq_left hW
  have hopen2 : fs.file filename = some (bytes.take W ++ bytes.drop W) := by
    rw [List.take_append_drop]; exact hopen
  rw [loadSegmentsFromFile_open W junk fs filename (bytes.take W) (bytes.drop W) hopen2 htake,
    ← record_zero,
    loadLoop_records W junk (record W bytes 0) 0 _ rfl
      (by simp only [List.length_drop]; omega)]
  have hshift : record W (bytes.drop W) = fun j => record W bytes (j + 1) :=
    funext (fun j => record_drop W j bytes)
  simp only [hshift]

/-- What `loadSegmentsFromFile` does on a file that holds a whole count field: the loop
runs as many times as the count field says, whatever follows. -/
theorem loadSegmentsFromFile_header (W : Nat) (junk : Nat → Nat) (fs : FileSystem)
    (filename : Path) (bytes : List Byte) (hopen : fs.file filename = some bytes)
    (hheader : W ≤ bytes.length) :
    ∃ (segKeys : List Nat) (reads : List Event),
      loadSegmentsFromFile W junk fs filename
        = Outcome.returned segKeys (Event.read W W :: reads ++ [Event.cout]) ∧
      segKeys.length = record W bytes 0 ∧ reads.length = record W bytes 0 := by
  have htake : (bytes.take W).length = W := by
    rw [List.length_take]; exact Nat.min_eq_left hheader
  have hopen2 : fs.file filename = some (bytes.take W ++ bytes.drop W) := by
    rw [List.take_append_drop]; exact hopen
  refine ⟨_, _,
    loadSegmentsFromFile_open W junk fs filename (bytes.take W) (bytes.drop W) hopen2 htake,
    ?_, ?_⟩
  · rw [loadLoop_length, record_zero]
  · rw [loadLoop_trace_length, record_zero]

/-! ## The segment loader and the persisted file -/

/-- C11. Segment loader on a well-formed file: when the file holds a `W`-byte count field
`c` followed by at least `c` whole `W`-byte records, `loadSegmentsFromFile` returns exactly
the records `1 .. c` of the file, decoded as `W`-byte unsigned integers in file order; the
length `c` comes from the count field, `c + 1` reads of `W` bytes are made, and the outcome
is that on the file cut after record `c`, so that trailing bytes are ignored. -/
theorem loadSegmentsFromFile_wellformed (W : Nat) (hW : 0 < W) (junk : Nat → Nat)
    (fs : FileSystem) (filename : Path) (bytes : List Byte) (c : Nat)
    (hopen : fs.file filename = some bytes) (hcount : record W bytes 0 = c)
    (hrecords : (c + 1) * W ≤ bytes.length) :
    ∃ segKeys : List Nat,
      loadSegmentsFromFile W junk fs filename
        = Outcome.returned segKeys
            (Event.read W W :: List.replicate c (Event.read W W) ++ [Event.cout]) ∧
      segKeys.length = c ∧
      segKeys = (List.range c).map (fun j => record W bytes (j + 1)) ∧
      ∀ (fs2 : FileSystem) (filename2 : Path),
        fs2.file filename2 = some (bytes.take ((c + 1) * W)) →
        loadSegmentsFromFile W junk fs2 filename2 = loadSegmentsFromFile W junk fs filename := by
  subst hcount
  have hpos : 0 < W := hW
  have hrun := loadSegmentsFromFile_records W junk fs filename bytes hopen hrecords
  refine ⟨_, hrun, by simp, rfl, ?_⟩
  intro fs2 filename2 hopen2
  have hzero : record W (bytes.take ((record W bytes 0 + 1) * W)) 0 = record W bytes 0 :=
    record_take W _ 0 bytes (Nat.succ_pos _)
  have hlen : (bytes.take ((record W bytes 0 + 1) * W)).length
      = (record W bytes 0 + 1) * W := by
    rw [List.length_take]; exact Nat.min_eq_left hrecords
  rw [hrun, loadSegmentsFromFile_records W junk fs2 filename2 _ hopen2
    (by rw [hzero, hlen]), hzero]
  congr 1
  apply List.map_congr_left
  intro j hj
  exact record_take W _ (j + 1) bytes (Nat.succ_lt_succ (List.mem_range.mp hj))

/-- C11 at a concrete file: the count 2, the 8-byte keys 10, 20, 30 and one more byte load
as 10, 20. -/
theorem loadSegmentsFromFile_wellformed_witness :
    (0 < 8 ∧ (FileSystem.single "pgm_segments.bin" sampleSegmentFile).file "pgm_segments.bin"
          = some sampleSegmentFile
        ∧ record 8 sampleSegmentFile 0 = 2 ∧ (2 + 1) * 8 ≤ sampleSegmentFile.length) ∧
      loadSegmentsFromFile 8 (fun _ => 0) (FileSystem.single "pgm_segments.bin" sampleSegmentFile)
          "pgm_segments.bin"
        = Outcome.returned [10, 20]
            [Event.read 8 8, Event.read 8 8, Event.read 8 8, Event.cout] := by
  refine ⟨⟨by decide, by rfl, by decide, by decide⟩, ?_⟩
  obtain ⟨segKeys, hrun, -, hkeys, -⟩ :=
    loadSegmentsFromFile_wellformed 8 (by decide) (fun _ => 0)
      (FileSystem.single "pgm_segments.bin" sampleSegmentFile) "pgm_segments.bin"
      sampleSegmentFile 2 (by rfl) (by decide) (by decide)
  rw [hrun, hkeys]
  rfl

/-- C12. Persisted file layout: for every built index and every output path that can be
opened, `saveSegmentsToFile` leaves a file made of the `W`-byte count field followed by the
`W`-byte encoding of the key of every segment of the whole segment sequence, in sequence
order, written by one `write` per field; the file is `W * (1 + number of segments)` bytes
long and read as `W`-byte records it is the count followed by the keys. -/
theorem saveSegmentsToFile_layout (W : Nat) (hW : 0 < W) (hW8 : W ≤ 8) (index : PGMIndex)
    (hbuilt : BuiltIndex W index) (fs : FileSystem) (filename : Path)
    (hcreate : fs.canCreate filename = true) :
    ∃ (offset1 : Nat) (fs1 : FileSystem) (bytes : List Byte),
      index.levels_offsets.get? 1 = some offset1 ∧
      saveSegmentsToFile W index fs filename
        = Outcome.returned fs1
            (Event.write (encodeLE W (offset1 - 1))
              :: index.segments.map (fun segment => Event.write (encodeLE W segment.key))
              ++ [Event.cout]) ∧
      fs1.file filename = some bytes ∧
      bytes = encodeLE W (offset1 - 1)
        ++ (index.segments.map (fun segment => encodeLE W segment.key)).flatten ∧
      bytes.length = W * (1 + index.segments.length) ∧
      bytesVector W (1 + index.segments.length) bytes
        = (offset1 - 1) % 2 ^ (8 * W) :: index.segments.map Segment.key := by
  obtain ⟨offset1, hoff, h1, h2⟩ := hbuilt.offset1
  have hpos : 0 < W := hW
  have hsize : index.segments.length < 2 ^ 64 := hbuilt.2.2.2.2.2
  have hsave := saveSegmentsToFile_open W hW8 index fs filename offset1 hcreate hoff
  rw [segmentsCount_eq offset1 h1 (by omega)] at hsave
  have hfit : ∀ key ∈ index.segments.map Segment.key, key < 2 ^ (8 * W) := by
    intro key hkey
    obtain ⟨segment, hmem, rfl⟩ := List.mem_map.mp hkey
    exact hbuilt.2.2.2.2.1 segment hmem
  have hdrop : (encodeLE W (offset1 - 1)
      ++ vectorBytes W (index.segments.map Segment.key)).drop W
      = vectorBytes W (index.segments.map Segment.key) :=
    List.drop_left' (encodeLE_length W _)
  have htake : (encodeLE W (offset1 - 1)
      ++ vectorBytes W (index.segments.map Segment.key)).take W = encodeLE W (offset1 - 1) :=
    List.take_left' (encodeLE_length W _)
  refine ⟨offset1, _, _, hoff, hsave, FileSystem.store_file _ _ _, ?_, ?_, ?_⟩
  · simp [vectorBytes, List.map_map, Function.comp_def]
  · rw [List.length_append, encodeLE_length, vectorBytes_length, List.length_map]; ring
  · have hvec := bytesVector_vectorBytes W (index.segments.map Segment.key) [] hfit
    rw [List.append_nil, List.length_map] at hvec
    have hshift : (fun j => record W (encodeLE W (offset1 - 1)
        ++ vectorBytes W (index.segments.map Segment.key)) (j + 1))
        = record W (vectorBytes W (index.segments.map Segment.key)) := by
      funext j; rw [← record_drop, hdrop]
    rw [Nat.add_comm 1, bytesVector_succ, record_zero, htake, decodeLE_encodeLE, hshift]
    congr 1

/-- C12 at the index with the segment keys 10, 20, 30 in one level. -/
theorem saveSegmentsToFile_layout_witness :
    (0 < 8 ∧ 8 ≤ 8 ∧ BuiltIndex 8 sampleIndex ∧
        FileSystem.scratch.canCreate "pgm_segments.bin" = true) ∧
      ∃ (offset1 : Nat) (fs1 : FileSystem) (bytes : List Byte),
        sampleIndex.levels_offsets.get? 1 = some offset1 ∧
        saveSegmentsToFile 8 sampleIndex FileSystem.scratch "pgm_segments.bin"
          = Outcome.returned fs1
              (Event.write (encodeLE 8 (offset1 - 1))
                :: sampleIndex.segments.map (fun segment => Event.write (encodeLE 8 segment.key))
                ++ [Event.cout]) ∧
        fs1.file "pgm_segments.bin" = some bytes ∧
        bytes = encodeLE 8 (offset1 - 1)
          ++ (sampleIndex.segments.map (fun segment => encodeLE 8 segment.key)).flatten ∧
        bytes.length = 8 * (1 + sampleIndex.segments.length) ∧
        bytesVector 8 (1 + sampleIndex.segments.length) bytes
          = (offset1 - 1) % 2 ^ (8 * 8) :: sampleIndex.segments.map Segment.key :=
  ⟨⟨by decide, by decide, by decide, by rfl⟩,
    saveSegmentsToFile_layout 8 (by decide) (by decide) sampleIndex (by decide)
      FileSystem.scratch "pgm_segments.bin" (by rfl)⟩

/-- C13. Deterministic persistence: for every built index there is one byte sequence and
one sequence of stream calls such that `saveSegmentsToFile`, on whatever file system and
whatever output path that can be opened, makes these calls and leaves exactly these bytes
in the file, without touching any other file: two calls on two paths give two files with
identical contents. -/
theorem saveSegmentsToFile_deterministic (W : Nat) (hW : 0 < W) (hW8 : W ≤ 8)
    (index : PGMIndex) (hbuilt : BuiltIndex W index) :
    ∃ (bytes : List Byte) (trace : List Event),
      ∀ (fs : FileSystem) (filename : Path), fs.canCreate filename = true →
        ∃ fs1 : FileSystem,
          saveSegmentsToFile W index fs filename = Outcome.returned fs1 trace ∧
          fs1.file filename = some bytes ∧
          (∀ other : Path, other ≠ filename → fs1.file other = fs.file other) ∧
          fs1.canCreate = fs.canCreate := by
  obtain ⟨offset1, hoff, -, -⟩ := hbuilt.offset1
  have hpos : 0 < W := hW
  refine ⟨_, _, fun fs filename hcreate =>
    ⟨_, saveSegmentsToFile_open W hW8 index fs filename offset1 hcreate hoff,
      FileSystem.store_file _ _ _, ?_, rfl⟩⟩
  intro other hne
  simp [FileSystem.store, hne]

/-- C13 at the index with the segment keys 10, 20, 30 in one level: saved to `a.bin` and then
to `b.bin`, both files hold the same bytes. -/
theorem saveSegmentsToFile_deterministic_witness :
    (0 < 8 ∧ 8 ≤ 8 ∧ BuiltIndex 8 sampleIndex) ∧
      ∃ (bytes : List Byte) (trace : List Event) (fs1 fs2 : FileSystem),
        saveSegmentsToFile 8 sampleIndex FileSystem.scratch "a.bin"
          = Outcome.returned fs1 trace ∧
        saveSegmentsToFile 8 sampleIndex fs1 "b.bin" = Outcome.returned fs2 trace ∧
        fs2.file "a.bin" = some bytes ∧ fs2.file "b.bin" = some bytes := by
  refine ⟨⟨by decide, by decide, by decide⟩, ?_⟩
  obtain ⟨bytes, trace, hall⟩ :=
    saveSegmentsToFile_deterministic 8 (by decide) (by decide) sampleIndex (by decide)
  obtain ⟨fs1, hrun1, hfile1, -, hcreate1⟩ := hall FileSystem.scratch "a.bin" (by rfl)
  obtain ⟨fs2, hrun2, hfile2, hother2, -⟩ :=
    hall fs1 "b.bin" (by rw [hcreate1]; rfl)
  refine ⟨bytes, trace, fs1, fs2, hrun1, hrun2, ?_, hfile2⟩
  rw [hother2 "a.bin" (by decide), hfile1]

/-- C14. Count and content mismatch on indexes with more than one level: when the
level-offset table has at least three entries, starts at 0, increases strictly and ends at
the number of segments, the count field written by `saveSegmentsToFile` is the `W`-byte
image of `levels_offsets[1] - 1` and nothing else, one key record is written per segment,
and the count read from the file is smaller than the number of key records after it. -/
theorem saveSegmentsToFile_multilevel_mismatch (W : Nat) (hW : 0 < W) (hW8 : W ≤ 8)
    (index : PGMIndex) (hlevels : 3 ≤ index.levels_offsets.length)
    (hzero : index.levels_offsets.head? = some 0)
    (hincr : index.levels_offsets.Pairwise (fun a b => a < b))
    (hlast : index.levels_offsets.getLast? = some index.segments.length)
    (fs : FileSystem) (filename : Path) (hcreate : fs.canCreate filename = true) :
    ∃ (offset1 : Nat) (fs1 : FileSystem) (bytes : List Byte),
      index.levels_offsets.get? 1 = some offset1 ∧
      saveSegmentsToFile W index fs filename
        = Outcome.returned fs1
            (Event.write (encodeLE W (segmentsCount offset1))
              :: index.segments.map (fun segment => Event.write (encodeLE W segment.key))
              ++ [Event.cout]) ∧
      fs1.file filename = some bytes ∧
      bytes.take W = encodeLE W (segmentsCount offset1) ∧
      record W bytes 0 = segmentsCount offset1 % 2 ^ (8 * W) ∧
      (bytes.length - W) / W = index.segments.length ∧
      record W bytes 0 < (bytes.length - W) / W ∧
      record W bytes 0 ≠ index.segments.length := by
  obtain ⟨offset1, hoff, h1, h2⟩ :=
    offset1_of_multilevel index.levels_offsets index.segments.length hlevels hzero hincr hlast
  have hsave := saveSegmentsToFile_open W hW8 index fs filename offset1 hcreate hoff
  have htake : (encodeLE W (segmentsCount offset1)
      ++ vectorBytes W (index.segments.map Segment.key)).take W
      = encodeLE W (segmentsCount offset1) := List.take_left' (encodeLE_length W _)
  have hrec : record W (encodeLE W (segmentsCount offset1)
      ++ vectorBytes W (index.segments.map Segment.key)) 0
      = segmentsCount offset1 % 2 ^ (8 * W) := by
    rw [record_zero, htake, decodeLE_encodeLE]
  have hnum : ((encodeLE W (segmentsCount offset1)
      ++ vectorBytes W (index.segments.map Segment.key)).length - W) / W
      = index.segments.length := by
    rw [List.length_append, encodeLE_length, vectorBytes_length, List.length_map,
      Nat.add_sub_cancel_left, Nat.mul_div_cancel _ hW]
  have hsmall : segmentsCount offset1 % 2 ^ (8 * W) < index.segments.length := by
    have hmod := Nat.mod_le (segmentsCount offset1) (2 ^ (8 * W))
    have hlt := segmentsCount_lt offset1 h1
    omega
  refine ⟨offset1, _, _, hoff, hsave, FileSystem.store_file _ _ _, htake, hrec, hnum, ?_, ?_⟩
  · rw [hrec, hnum]; exact hsmall
  · rw [hrec]; exact Nat.ne_of_lt hsmall

/-- C14 at an index with three segments in level 0 and one in level 1. -/
theorem saveSegmentsToFile_multilevel_mismatch_witness :
    (0 < 8 ∧ 8 ≤ 8 ∧ 3 ≤ twoLevelIndex.levels_offsets.length ∧
        twoLevelIndex.levels_offsets.head? = some 0 ∧
        twoLevelIndex.levels_offsets.Pairwise (fun a b => a < b) ∧
        twoLevelIndex.levels_offsets.getLast? = some twoLevelIndex.segments.length ∧
        FileSystem.scratch.canCreate "pgm_segments.bin" = true) ∧
      ∃ (offset1 : Nat) (fs1 : FileSystem) (bytes : List Byte),
        twoLevelIndex.levels_offsets.get? 1 = some offset1 ∧
        saveSegmentsToFile 8 twoLevelIndex FileSystem.scratch "pgm_segments.bin"
          = Outcome.returned fs1
              (Event.write (encodeLE 8 (segmentsCount offset1))
                :: twoLevelIndex.segments.map
                    (fun segment => Event.write (encodeLE 8 segment.key))
                ++ [Event.cout]) ∧
        fs1.file "pgm_segments.bin" = some bytes ∧
        bytes.take 8 = encodeLE 8 (segmentsCount offset1) ∧
        record 8 bytes 0 = segmentsCount offset1 % 2 ^ (8 * 8) ∧
        (bytes.length - 8) / 8 = twoLevelIndex.segments.length ∧
        record 8 bytes 0 < (bytes.length - 8) / 8 ∧
        record 8 bytes 0 ≠ twoLevelIndex.segments.length :=
  ⟨⟨by decide, by decide, by decide, by rfl, by decide, by rfl, by rfl⟩,
    saveSegmentsToFile_multilevel_mismatch 8 (by decide) (by decide) twoLevelIndex (by decide)
      (by rfl) (by decide) (by rfl) FileSystem.scratch "pgm_segments.bin" (by rfl)⟩

/-- C15. Exact result of saving and loading back: for every index whose level-offset table
has a second entry `levels_offsets[1]` between 1 and the number of segments plus 1, with
`levels_offsets[1] - 1` fitting a field of `W` bytes (the keys being values of the key
type), `loadSegmentsFromFile` on the file written by `saveSegmentsToFile` returns exactly
the first `levels_offsets[1] - 1` representative keys of the flat segment sequence, in
order; when `levels_offsets[1]` is the number of segments, that is the sequence without
the key of the last segment. -/
theorem saveThenLoad_exact (W : Nat) (hW : 0 < W) (hW8 : W ≤ 8) (junk : Nat → Nat)
    (index : PGMIndex) (fs : FileSystem) (filename : Path)
    (hcreate : fs.canCreate filename = true) (offset1 : Nat)
    (hoff : index.levels_offsets.get? 1 = some offset1)
    (h1 : 1 ≤ offset1) (hle : offset1 ≤ index.segments.length + 1)
    (hfit : offset1 - 1 < 2 ^ (8 * W))
    (hkeys : ∀ segment ∈ index.segments, segment.key < 2 ^ (8 * W)) :
    (saveThenLoad W junk index fs filename).value?
        = some ((index.segments.map Segment.key).take (offset1 - 1)) ∧
      (offset1 = index.segments.length →
        (saveThenLoad W junk index fs filename).value?
          = some (index.segments.map Segment.key).dropLast) := by
  have hpos : 0 < W := hW
  have hrun := saveThenLoad_prefix W hW8 junk index fs filename hcreate offset1 hoff h1
    (by omega) hfit hkeys
  refine ⟨hrun, ?_⟩
  intro hsingle
  rw [hrun, List.dropLast_eq_take, List.length_map, hsingle]

/-- C15 at the index with the segment keys 10, 20, 30 in one level: 10, 20 are returned. -/
theorem saveThenLoad_exact_witness :
    (0 < 8 ∧ 8 ≤ 8 ∧ FileSystem.scratch.canCreate "pgm_segments.bin" = true ∧
        sampleIndex.levels_offsets.get? 1 = some 3 ∧ 1 ≤ 3 ∧
        3 ≤ sampleIndex.segments.length + 1 ∧ 3 - 1 < 2 ^ (8 * 8) ∧
        ∀ segment ∈ sampleIndex.segments, segment.key < 2 ^ (8 * 8)) ∧
      (saveThenLoad 8 (fun _ => 0) sampleIndex FileSystem.scratch "pgm_segments.bin").value?
        = some [10, 20] := by
  refine ⟨⟨by decide, by decide, by rfl, by rfl, by decide, by decide, by decide, by decide⟩, ?_⟩
  rw [(saveThenLoad_exact 8 (by decide) (by decide) (fun _ => 0) sampleIndex
    FileSystem.scratch "pgm_segments.bin" (by rfl) 3 (by rfl) (by decide) (by decide)
    (by decide) (by decide)).1]
  rfl

/-- C16. No truncation on short reads: on a segment file that can be opened and holds at
least `W` bytes, with the count field decoding to `c`, `loadSegmentsFromFile` returns a
sequence of length exactly `c` after `c` calls of `read` in its loop, one element being
appended per call, however many whole records follow the header. -/
theorem loadSegmentsFromFile_no_truncation (W : Nat) (hW : 0 < W) (junk : Nat → Nat)
    (fs : FileSystem) (filename : Path) (bytes : List Byte) (c : Nat)
    (hopen : fs.file filename = some bytes) (hheader : W ≤ bytes.length)
    (hcount : record W bytes 0 = c) :
    ∃ (segKeys : List Nat) (reads : List Event),
      loadSegmentsFromFile W junk fs filename
        = Outcome.returned segKeys (Event.read W W :: reads ++ [Event.cout]) ∧
      segKeys.length = c ∧ reads.length = c := by
  have hpos : 0 < W := hW
  subst hcount
  exact loadSegmentsFromFile_header W junk fs filename bytes hopen hheader

/-- C16 at a concrete file of 2-byte records: the count field says 3, one whole record and
one more byte follow, and three keys are returned. -/
theorem loadSegmentsFromFile_no_truncation_witness :
    (0 < 2 ∧ (FileSystem.single "pgm_segments.bin" shortSegmentFile).file "pgm_segments.bin"
          = some shortSegmentFile
        ∧ 2 ≤ shortSegmentFile.length ∧ record 2 shortSegmentFile 0 = 3
        ∧ (shortSegmentFile.length - 2) / 2 < 3) ∧
      ∃ (segKeys : List Nat) (reads : List Event),
        loadSegmentsFromFile 2 (fun _ => 0)
            (FileSystem.single "pgm_segments.bin" shortSegmentFile) "pgm_segments.bin"
          = Outcome.returned segKeys (Event.read 2 2 :: reads ++ [Event.cout]) ∧
        segKeys.length = 3 ∧ reads.length = 3 :=
  ⟨⟨by decide, by rfl, by decide, by decide, by decide⟩,
    loadSegmentsFromFile_no_truncation 2 (by decide) (fun _ => 0)
      (FileSystem.single "pgm_segments.bin" shortSegmentFile) "pgm_segments.bin"
      shortSegmentFile 3 (by rfl) (by decide) (by decide)⟩

end PGM
